import Mathlib

/-!
Verification of the lattigo scheme-layer specification against the sources.

The only full implementation file in the repository is
`mkbfv/relinearization.go`; it is embedded here in full.  The polynomial
ring engine (`ring.Ring`) is an external collaborator (spec section 6), so
its primitives (`NewPoly`, `Add`, `MulCoeffsMontgomeryAndAdd`, `Dot`,
`GInverse`, `ModDownPQ`) are parameters of the embedding rather than
concrete functions.  Because `RelinearizationWithSharedRelinKey` mutates
polynomial objects through shared pointers, polynomials are modelled as
addresses into an explicit store (a list of ring elements); the pure
helper `applySwitchingKey` and the non-mutating `RelinearizationOnTheFly`
are modelled at the level of values.
-/

namespace Lattigo

namespace MKBFV

/-- The operations of one `ring.Ring` context (ringQ or ringQP), as consumed
by `mkbfv/relinearization.go`.  `add` models `ring.Add(a, b, dst)` as the
value written to `dst`; `MulCoeffsMontgomeryAndAdd a b acc` models
`ring.MulCoeffsMontgomeryAndAdd(a, b, acc)` as the updated accumulator;
`Dot d key` models `Dot(d, key, out, ring)` as the value written to `out`;
`zero` models `ring.NewPoly()` (a freshly allocated zero polynomial). -/
structure RingCtx (R : Type) where
  zero : R
  add : R → R → R
  MulCoeffsMontgomeryAndAdd : R → R → R → R
  Dot : List R → List R → R

/-- The `bfv.Parameters` handle together with the external mkbfv helpers:
`GetRingQ`/`GetRingQP` become the two `RingCtx` fields, `GInverse(c, params)`
decomposes a polynomial into `Beta` digits, and
`FastBasisExtender.ModDownPQ(levelQ, p, dst)` maps a Q·P polynomial back
to Q. -/
structure MKParams (R : Type) where
  Beta : Nat
  ringQ : RingCtx R
  ringQP : RingCtx R
  GInverse : R → List R
  ModDownPQ : R → R

/-- `MKSwitchingKey`: three decomposed polynomials; `key0`, `key1`, `key2`
are `key.key[0].poly`, `key.key[1].poly`, `key.key[2].poly` of the Go
struct, each a vector of `Beta` polynomials. -/
structure MKSwitchingKey (R : Type) where
  key0 : List R
  key1 : List R
  key2 : List R

/-- `MKEvaluationKey`: `key0`, `key1`, `key2` are `key[0]`, `key[1]`,
`key[2]` (the `Di, bi` material of one party). -/
structure MKEvaluationKey (R : Type) where
  key0 : List R
  key1 : List R
  key2 : List R

/-- `MKPublicKey`: `key0`, `key1` are `key[0]`, `key[1]`. -/
structure MKPublicKey (R : Type) where
  key0 : List R
  key1 : List R

/-- `MKRelinearizationKey`: the `k×k` matrix `key[i][j]` of pairwise
switching keys, modelled as an index function. -/
structure MKRelinearizationKey (R : Type) where
  key : Nat → Nat → MKSwitchingKey R

/-- The heap of allocated `ring.Poly` objects: an address is an index into
this list. -/
abbrev Store (R : Type) := List R

/-- `MKCiphertext` as it appears to `RelinearizationWithSharedRelinKey`:
`value` holds the addresses of the `(k+1)²` component polynomials
(`ciphertext.ciphertexts.Value()`), `peerIDs` the active party list. -/
structure MKCiphertext where
  value : List Nat
  peerIDs : List Nat

/-- `applySwitchingKey` (mkbfv/relinearization.go:155-169): starting from
three fresh zero polynomials `c0, ci, cj`, loop `i` over `[0, Beta)` and
apply `ringQ.MulCoeffsMontgomeryAndAdd(decomposedCipher.poly[i],
key.key[m].poly[i], ·)` to each accumulator. -/
def applySwitchingKey (P : MKParams R) (decomposedCipher : List R)
    (key : MKSwitchingKey R) : R × R × R :=
  let ringQ := P.ringQ
  (List.range P.Beta).foldl
    (fun c i =>
      (ringQ.MulCoeffsMontgomeryAndAdd (decomposedCipher.getD i ringQ.zero)
         (key.key0.getD i ringQ.zero) c.1,
       ringQ.MulCoeffsMontgomeryAndAdd (decomposedCipher.getD i ringQ.zero)
         (key.key1.getD i ringQ.zero) c.2.1,
       ringQ.MulCoeffsMontgomeryAndAdd (decomposedCipher.getD i ringQ.zero)
         (key.key2.getD i ringQ.zero) c.2.2))
    (ringQ.zero, ringQ.zero, ringQ.zero)

/-- Body of the first loop of `RelinearizationWithSharedRelinKey`
(mkbfv/relinearization.go:23-25):
`ringQ.Add(cipherParts[i], cipherParts[(k+1)*i], res[i])`. -/
def sharedLoop1Body (P : MKParams R) (res cipherParts : List Nat) (k : Nat)
    (σ : Store R) (i : Nat) : Store R :=
  σ.set (res.getD i 0)
    (P.ringQ.add (σ.getD (cipherParts.getD i 0) P.ringQ.zero)
      (σ.getD (cipherParts.getD ((k+1)*i) 0) P.ringQ.zero))

/-- Body of the inner key-switch loop of `RelinearizationWithSharedRelinKey`
(mkbfv/relinearization.go:31-37): decompose the cross term
`cipherParts[i*(k+1)+j]`, apply the pairwise switching key, and accumulate
the three outputs into `c0Prime`, `res[i]`, `res[j]` in place. -/
def sharedLoop2Body (P : MKParams R) (relinKey : MKRelinearizationKey R)
    (res cipherParts : List Nat) (k c0Prime i : Nat) (σ : Store R)
    (j : Nat) : Store R :=
  let decomposedIJ :=
    P.GInverse (σ.getD (cipherParts.getD (i*(k+1)+j) 0) P.ringQ.zero)
  let c := applySwitchingKey P decomposedIJ (relinKey.key i j)
  let σ := σ.set c0Prime (P.ringQ.add (σ.getD c0Prime P.ringQ.zero) c.1)
  let σ := σ.set (res.getD i 0)
    (P.ringQ.add (σ.getD (res.getD i 0) P.ringQ.zero) c.2.1)
  σ.set (res.getD j 0)
    (P.ringQ.add (σ.getD (res.getD j 0) P.ringQ.zero) c.2.2)

/-- `RelinearizationWithSharedRelinKey` (mkbfv/relinearization.go:10-44),
store-passing translation.  `res` receives `k+1` freshly allocated
polynomials (addresses `σ.length .. σ.length + k`); `c0Prime` is the
address `Value()[0]`; the two loops mirror the source line for line; the
final ciphertext has `res[0] := c0Prime` (the same object, mutated in
place) and `SetValue(res)`. -/
def RelinearizationWithSharedRelinKey (P : MKParams R)
    (relinKey : MKRelinearizationKey R) (ciphertext : MKCiphertext)
    (σ : Store R) : MKCiphertext × Store R :=
  let k := ciphertext.peerIDs.length
  let res : List Nat := (List.range (k+1)).map (fun i => σ.length + i)
  let σ1 : Store R := σ ++ List.replicate (k+1) P.ringQ.zero
  let c0Prime := ciphertext.value.getD 0 0
  let cipherParts := ciphertext.value
  let σ2 := (List.range' 1 k).foldl (sharedLoop1Body P res cipherParts k) σ1
  let σ3 := (List.range' 1 k).foldl
    (fun σ i =>
      (List.range' 1 k).foldl
        (sharedLoop2Body P relinKey res cipherParts k c0Prime i) σ) σ2
  ({ value := res.set 0 c0Prime, peerIDs := ciphertext.peerIDs }, σ3)

/-- The component values of the ciphertext produced by
`RelinearizationWithSharedRelinKey`, read back from the final store. -/
def RelinearizationWithSharedRelinKeyValues (P : MKParams R)
    (relinKey : MKRelinearizationKey R) (ciphertext : MKCiphertext)
    (σ : Store R) : List R :=
  let r := RelinearizationWithSharedRelinKey P relinKey ciphertext σ
  r.1.value.map (fun a => r.2.getD a P.ringQ.zero)

/-- `RelinearizationOnTheFly` (mkbfv/relinearization.go:102-152), the
active (uncommented) variant.  It reads the input components and returns
the `k+1` values installed by `SetValue(res)`; it never writes through the
input component pointers, so a value-level translation is faithful.  Note
the source's loop bounds `i < k`, `j < k` (not `i <= k`) and that the
accumulation `ringQP.Add(cIJDoublePrime, tmpC0, cIJDoublePrime)` writes to
a per-iteration local that is never read again. -/
def RelinearizationOnTheFly (P : MKParams R)
    (evaluationKeys : List (MKEvaluationKey R))
    (publicKeys : List (MKPublicKey R)) (cipherParts : List R) : List R :=
  let k := evaluationKeys.length
  let restmp0 : List R := List.replicate (k+1) P.ringQP.zero
  let restmp := (List.range' 1 (k-1)).foldl
    (fun restmp i =>
      let di0 := (evaluationKeys.getD (i-1) ⟨[], [], []⟩).key0
      let di1 := (evaluationKeys.getD (i-1) ⟨[], [], []⟩).key1
      let di2 := (evaluationKeys.getD (i-1) ⟨[], [], []⟩).key2
      (List.range' 1 (k-1)).foldl
        (fun restmp j =>
          let decomposedIJ :=
            P.GInverse (cipherParts.getD (i*(k+1)+j) P.ringQ.zero)
          let cIJDoublePrime :=
            P.ringQP.Dot decomposedIJ ((publicKeys.getD j ⟨[], []⟩).key0)
          let cIJPrime := P.ModDownPQ cIJDoublePrime
          let decomposedTmp := P.GInverse cIJPrime
          let tmpC0 := P.ringQP.Dot decomposedTmp di0
          let tmpCi := P.ringQP.Dot decomposedTmp di1
          -- ringQP.Add(cIJDoublePrime, tmpC0, cIJDoublePrime): the sum is
          -- stored in the per-iteration local and never read again
          let _cIJDoublePrime := P.ringQP.add cIJDoublePrime tmpC0
          let restmp := restmp.set i
            (P.ringQP.add (restmp.getD i P.ringQP.zero) tmpCi)
          let tmpIJ := P.ringQP.Dot decomposedIJ di2
          restmp.set j (P.ringQP.add (restmp.getD j P.ringQP.zero) tmpIJ))
        restmp) restmp0
  let c0Prime := P.ringQ.add (cipherParts.getD 0 P.ringQ.zero)
    (P.ModDownPQ (restmp.getD 0 P.ringQP.zero))
  c0Prime :: (List.range' 1 k).map
    (fun i =>
      P.ringQ.add
        (P.ringQ.add (cipherParts.getD i P.ringQ.zero)
          (cipherParts.getD ((k+1)*i) P.ringQ.zero))
        (P.ModDownPQ (restmp.getD i P.ringQP.zero)))

/-- One accumulator of the key-switch inner step as the spec words it
(section 4.3, step 2): "for each digit, multiply-accumulate against the
matching key pair using Montgomery-domain coefficient multiplication,
summing into an accumulator" — over the ring context `rc`. -/
def keySwitchAccum (rc : RingCtx R) (Beta : Nat) (d keyPart : List R) : R :=
  (List.range Beta).foldl
    (fun acc i =>
      rc.MulCoeffsMontgomeryAndAdd (d.getD i rc.zero) (keyPart.getD i rc.zero) acc)
    rc.zero

/-- The constant-term contribution of one cross term `(i, j)`: the first
output of `applySwitchingKey` on the decomposed cross term
`c[i·(k+1)+j]`, the polynomial values being read from the store `σ`. -/
def c0Contrib (P : MKParams R) (relinKey : MKRelinearizationKey R)
    (cipherParts : List Nat) (k : Nat) (σ : Store R) (i j : Nat) : R :=
  (applySwitchingKey P
    (P.GInverse (σ.getD (cipherParts.getD (i*(k+1)+j) 0) P.ringQ.zero))
    (relinKey.key i j)).1

/-- The constant term accumulated by `RelinearizationWithSharedRelinKey`:
the original component 0, plus, for every pair `(i, j)` with
`1 ≤ i, j ≤ k`, the constant-term contribution of that cross term. -/
def c0Accumulated (P : MKParams R) (relinKey : MKRelinearizationKey R)
    (ciphertext : MKCiphertext) (σ : Store R) : R :=
  let k := ciphertext.peerIDs.length
  (List.range' 1 k).foldl
    (fun acc i =>
      (List.range' 1 k).foldl
        (fun acc j =>
          P.ringQ.add acc (c0Contrib P relinKey ciphertext.value k σ i j))
        acc)
    (σ.getD (ciphertext.value.getD 0 0) P.ringQ.zero)

/-- A concrete single-coefficient ring context: arithmetic modulo `m` on
`Int`, standing in for one RNS ring of the external engine. -/
def ringMod (m : Int) : RingCtx Int where
  zero := 0
  add := fun a b => (a + b) % m
  MulCoeffsMontgomeryAndAdd := fun a b acc => (acc + a * b) % m
  Dot := fun d key => ((d.zip key).foldl (fun s p => s + p.1 * p.2) 0) % m

/-- Concrete parameters: base ring Q modulo 5, extended ring Q·P modulo 35,
one decomposition digit. -/
def intParams : MKParams Int where
  Beta := 1
  ringQ := ringMod 5
  ringQP := ringMod 35
  GInverse := fun c => [c]
  ModDownPQ := fun c => c % 5

/-- A concrete shared relinearization key for the instantiation above. -/
def rkConc : MKRelinearizationKey Int := ⟨fun _ _ => ⟨[4], [0], [0]⟩⟩

/-- A concrete one-party evaluation-key list for the instantiation above. -/
def eksConc : List (MKEvaluationKey Int) := [⟨[1], [0], [0]⟩]

end MKBFV

namespace CKKS

/-- Modelled from the spec: the bookkeeping fields of a ckks `Ciphertext`
(section 3) — `degree`, `level`, and a positive rational `scale`.  The
ckks evaluator implementation is not in the sources (only its tests), so
these operators are modelled from the spec's operator table. -/
structure Ciphertext where
  degree : Nat
  level : Nat
  scale : ℚ
deriving DecidableEq

/-- Modelled from the spec: the error kinds of section 7. -/
inductive EvalError where
  | LevelMismatch
  | ScaleMismatch
  | DegreeMismatch
  | MissingKey
  | SerializationError
  | ParameterInvalid
deriving DecidableEq

/-- Modelled from the spec: the `Parameters` modulus chain
`Q = [q_0, …, q_L]` (section 3). -/
structure Parameters where
  moduli : List Nat

/-- Modelled from the spec: `Relinearize` (section 4.2 table and section
7): precondition `degree == 2` and evaluation key present; effect
`degree → 1` with level and scale unchanged; a non-degree-2 input fails
with `DegreeMismatch`. -/
def Relinearize (evalKeyPresent : Bool) (ct : Ciphertext) :
    Except EvalError Ciphertext :=
  if ct.degree ≠ 2 then Except.error EvalError.DegreeMismatch
  else if evalKeyPresent then Except.ok ⟨1, ct.level, ct.scale⟩
  else Except.error EvalError.MissingKey

/-- Modelled from the spec: `Rescale` (section 4.2 table): precondition
`level ≥ 1`; effect `level -= 1`, `scale /= q_level` (the modulus just
dropped); a level that would go negative fails with `LevelMismatch`. -/
def Rescale (p : Parameters) (ct : Ciphertext) : Except EvalError Ciphertext :=
  if ct.level = 0 then Except.error EvalError.LevelMismatch
  else Except.ok ⟨ct.degree, ct.level - 1,
    ct.scale / (p.moduli.getD ct.level 0 : ℚ)⟩

/-- Modelled from the spec: `RescaleMany(n)` is `n` repetitions of
`Rescale` (section 4.2 table). -/
def RescaleMany (p : Parameters) : Nat → Ciphertext → Except EvalError Ciphertext
  | 0, ct => Except.ok ct
  | Nat.succ m, ct => (Rescale p ct).bind (RescaleMany p m)

/-- The product of the moduli at indices `[lo, lo+n)`, as a rational. -/
def moduliProd (p : Parameters) (lo n : Nat) : ℚ :=
  ((List.range' lo n).map (fun i => (p.moduli.getD i 0 : ℚ))).prod

/-- Modelled from the spec: `RotateColumns(n)` applies the slot
permutation of the rotation automorphism — result slot `i` holds input
slot `(i+n) mod slots` (section 4.2 table; ckks_test.go:948-957).  The
rotation-key key-switch is noise bookkeeping only and does not change the
slot values. -/
def RotateColumns {α : Type} (s n : Nat) (v : Fin s → α) : Fin s → α :=
  fun i => v ⟨(i.val + n) % s, Nat.mod_lt _ (Nat.lt_of_le_of_lt (Nat.zero_le _) i.isLt)⟩

/-- Modelled from the spec: `Conjugate` maps every encoded slot value to
its complex conjugate (section 4.2 table; ckks_test.go:913-915), complex
numbers modelled as (re, im) pairs of rationals. -/
def Conjugate (s : Nat) (v : Fin s → ℚ × ℚ) : Fin s → ℚ × ℚ :=
  fun i => ((v i).1, -(v i).2)

/-- Modelled from the spec (section 4.1): the Codec per-coordinate
fixed-point contract — `Encode` scales each value by `scale` and rounds
to the nearest integer coefficient. -/
def Encode (scale : ℚ) (values : List ℚ) : List ℤ :=
  values.map (fun x => round (scale * x))

/-- Modelled from the spec (section 4.1): `Decode` divides each
coefficient by the scale. -/
def Decode (scale : ℚ) (p : List ℤ) : List ℚ :=
  p.map (fun (c : ℤ) => (c : ℚ) / scale)

/-- A concrete four-slot vector used as a test input. -/
def slotsSample : Fin 4 → ℚ × ℚ := fun i => ((i.val : ℚ), 1)

end CKKS

namespace DBFV

/-- Modelled from the spec: collective public-key generation, round
function (section 4.5): each party computes `share_i = -a·s_i + e_i`
over the common reference polynomial `a`.  The dbfv protocol
implementation is not in the sources (only its tests), and the polynomial
ring mod Q is the external engine, modelled as an arbitrary commutative
ring. -/
def CKGGenShare {R : Type} [CommRing R] (a s e : R) : R := -(a * s) + e

/-- Modelled from the spec: share aggregation is polynomial addition mod
Q (section 3, "Protocol shares"); the shares sum to the joint public
key's `b` component. -/
def AggregateShares {R : Type} [CommRing R] (shares : List R) : R :=
  shares.sum

/-- Modelled from the spec: an RLWE public key `(b, a)` (section 3). -/
structure PublicKey (R : Type) where
  b : R
  a : R

/-- Modelled from the spec: public-key encryption
`c = (b·u + e1 + Δv, a·u + e2)`, taken at zero noise (`e1 = e2 = 0`,
`Δv` folded into `v`) so that the approximate correctness contract
becomes an exact algebraic identity. -/
def Encrypt {R : Type} [CommRing R] (pk : PublicKey R) (v u : R) : R × R :=
  (pk.b * u + v, pk.a * u)

/-- Modelled from the spec: decryption under the joint secret `s`:
`c0 + c1·s`. -/
def Decrypt {R : Type} [CommRing R] (c : R × R) (s : R) : R :=
  c.1 + c.2 * s

end DBFV

namespace Serial

/-! Modelled from the spec (section 6, Serialization): every
Ciphertext/SecretKey/PublicKey/EvaluationKey/SwitchingKey/RotationKeys
type supports a binary encode/decode round trip preserving degree, level,
scale, and every ring-element coefficient; decoding a zero-length buffer
fails.  The byte-level wire layout is explicitly out of scope (spec
section 1), so the model serialises the logical fields into a word
stream.  The marshalling implementation is not in the sources (only its
tests, ckks_test.go:1030-1215). -/

/-- A ring element as its coefficient vector. -/
abbrev Poly := List Nat

/-- `Ciphertext` logical fields: component polynomials, level, scale.
The degree is the number of components minus one, so it is preserved
exactly when `value` is. -/
structure Ciphertext where
  value : List Poly
  level : Nat
  scale : ℚ
deriving DecidableEq

/-- `SecretKey`: one ring element. -/
structure SecretKey where
  sk : Poly
deriving DecidableEq

/-- `PublicKey`: the RLWE pair `(pk[0], pk[1])`. -/
structure PublicKey where
  pk0 : Poly
  pk1 : Poly
deriving DecidableEq

/-- `SwitchingKey`: `Beta` digit pairs of ring elements. -/
structure SwitchingKey where
  evakey : List (Poly × Poly)
deriving DecidableEq

/-- `EvaluationKey`: wraps the switching key for `s²`. -/
structure EvaluationKey where
  evakey : SwitchingKey
deriving DecidableEq

/-- One rotation-key entry: the rotation amount, the NTT-domain
index-permutation table, and the switching key for that amount. -/
structure RotEntry where
  amount : Nat
  permNTTIndex : List Nat
  key : SwitchingKey
deriving DecidableEq

/-- `RotationKeys`: one entry per supported rotation amount. -/
structure RotationKeys where
  entries : List RotEntry
deriving DecidableEq

/-- Encode a natural number. -/
def encNat (n : Nat) : List Nat := [n]

/-- Encode an integer (sign folded into parity). -/
def encInt (i : Int) : List Nat :=
  [if 0 ≤ i then 2 * i.toNat else 2 * (-i).toNat - 1]

/-- Encode a rational as numerator and denominator. -/
def encRat (q : ℚ) : List Nat := encInt q.num ++ encNat q.den

/-- Encode a list: length prefix, then the encoded elements. -/
def encList {α : Type} (enc : α → List Nat) (l : List α) : List Nat :=
  encNat l.length ++ (l.map enc).flatten

/-- Encode a polynomial: its coefficient list. -/
def encPoly (p : Poly) : List Nat := encList encNat p

/-- Encode a pair. -/
def encPair {α β : Type} (e1 : α → List Nat) (e2 : β → List Nat)
    (p : α × β) : List Nat := e1 p.1 ++ e2 p.2

/-- A decoder consumes a prefix of the stream. -/
abbrev Dec (α : Type) := List Nat → Option (α × List Nat)

/-- Decode a natural number; fails on an empty stream. -/
def decNat : Dec Nat
  | [] => none
  | n :: r => some (n, r)

/-- Decode an integer. -/
def decInt : Dec Int := fun l =>
  (decNat l).map (fun p =>
    (if p.1 % 2 = 0 then ((p.1 / 2 : Nat) : Int)
     else -(((p.1 + 1) / 2 : Nat) : Int), p.2))

/-- Decode a rational. -/
def decRat : Dec ℚ := fun l =>
  (decInt l).bind (fun p => (decNat p.2).map (fun q => (mkRat p.1 q.1, q.2)))

/-- Decode exactly `n` elements. -/
def decCount {α : Type} (d : Dec α) : Nat → Dec (List α)
  | 0 => fun l => some ([], l)
  | n+1 => fun l =>
      (d l).bind (fun p => (decCount d n p.2).map (fun q => (p.1 :: q.1, q.2)))

/-- Decode a length-prefixed list. -/
def decList {α : Type} (d : Dec α) : Dec (List α) := fun l =>
  (decNat l).bind (fun p => decCount d p.1 p.2)

/-- Decode a polynomial. -/
def decPoly : Dec Poly := decList decNat

/-- Decode a pair. -/
def decPair {α β : Type} (d1 : Dec α) (d2 : Dec β) : Dec (α × β) := fun l =>
  (d1 l).bind (fun p => (d2 p.2).map (fun q => ((p.1, q.1), q.2)))

/-- `Ciphertext.MarshalBinary`. -/
def MarshalCiphertext (ct : Ciphertext) : List Nat :=
  encList encPoly ct.value ++ encNat ct.level ++ encRat ct.scale

/-- `SecretKey.MarshalBinary`. -/
def MarshalSecretKey (k : SecretKey) : List Nat := encPoly k.sk

/-- `PublicKey.MarshalBinary`. -/
def MarshalPublicKey (k : PublicKey) : List Nat :=
  encPoly k.pk0 ++ encPoly k.pk1

/-- `SwitchingKey.MarshalBinary`. -/
def MarshalSwitchingKey (k : SwitchingKey) : List Nat :=
  encList (encPair encPoly encPoly) k.evakey

/-- `EvaluationKey.MarshalBinary`. -/
def MarshalEvaluationKey (k : EvaluationKey) : List Nat :=
  MarshalSwitchingKey k.evakey

/-- One rotation-key entry. -/
def encRotEntry (e : RotEntry) : List Nat :=
  encNat e.amount ++ encList encNat e.permNTTIndex ++ MarshalSwitchingKey e.key

/-- `RotationKeys.MarshalBinary`. -/
def MarshalRotationKeys (k : RotationKeys) : List Nat :=
  encList encRotEntry k.entries

/-- Decode the fields of a `Ciphertext`. -/
def decCiphertext : Dec Ciphertext := fun l =>
  (decList decPoly l).bind (fun p1 =>
    (decNat p1.2).bind (fun p2 =>
      (decRat p2.2).map (fun p3 => (⟨p1.1, p2.1, p3.1⟩, p3.2))))

/-- Decode the fields of a `SecretKey`. -/
def decSecretKey : Dec SecretKey := fun l =>
  (decPoly l).map (fun p => (⟨p.1⟩, p.2))

/-- Decode the fields of a `PublicKey`. -/
def decPublicKey : Dec PublicKey := fun l =>
  (decPoly l).bind (fun p1 => (decPoly p1.2).map (fun p2 => (⟨p1.1, p2.1⟩, p2.2)))

/-- Decode the fields of a `SwitchingKey`. -/
def decSwitchingKey : Dec SwitchingKey := fun l =>
  (decList (decPair decPoly decPoly) l).map (fun p => (⟨p.1⟩, p.2))

/-- Decode the fields of an `EvaluationKey`. -/
def decEvaluationKey : Dec EvaluationKey := fun l =>
  (decSwitchingKey l).map (fun p => (⟨p.1⟩, p.2))

/-- Decode one rotation-key entry. -/
def decRotEntry : Dec RotEntry := fun l =>
  (decNat l).bind (fun p1 =>
    (decList decNat p1.2).bind (fun p2 =>
      (decSwitchingKey p2.2).map (fun p3 => (⟨p1.1, p2.1, p3.1⟩, p3.2))))

/-- Decode the fields of a `RotationKeys`. -/
def decRotationKeys : Dec RotationKeys := fun l =>
  (decList decRotEntry l).map (fun p => (⟨p.1⟩, p.2))

/-- `Ciphertext.UnmarshalBinary`: the whole buffer must be consumed. -/
def UnmarshalCiphertext (l : List Nat) : Option Ciphertext :=
  match decCiphertext l with
  | some (x, []) => some x
  | _ => none

/-- `SecretKey.UnmarshalBinary`. -/
def UnmarshalSecretKey (l : List Nat) : Option SecretKey :=
  match decSecretKey l with
  | some (x, []) => some x
  | _ => none

/-- `PublicKey.UnmarshalBinary`. -/
def UnmarshalPublicKey (l : List Nat) : Option PublicKey :=
  match decPublicKey l with
  | some (x, []) => some x
  | _ => none

/-- `SwitchingKey.UnmarshalBinary`. -/
def UnmarshalSwitchingKey (l : List Nat) : Option SwitchingKey :=
  match decSwitchingKey l with
  | some (x, []) => some x
  | _ => none

/-- `EvaluationKey.UnmarshalBinary`. -/
def UnmarshalEvaluationKey (l : List Nat) : Option EvaluationKey :=
  match decEvaluationKey l with
  | some (x, []) => some x
  | _ => none

/-- `RotationKeys.UnmarshalBinary`. -/
def UnmarshalRotationKeys (l : List Nat) : Option RotationKeys :=
  match decRotationKeys l with
  | some (x, []) => some x
  | _ => none

end Serial

/-! ## Theorems -/

namespace MKBFV

/-- A simultaneous fold of three componentwise step functions equals the
three independent folds. -/
theorem foldl_prod3 {α β γ ι : Type} (l : List ι) (f : α → ι → α)
    (g : β → ι → β) (h : γ → ι → γ) (a : α) (b : β) (c : γ) :
    l.foldl (fun p i => (f p.1 i, g p.2.1 i, h p.2.2 i)) (a, b, c) =
      (l.foldl f a, l.foldl g b, l.foldl h c) := by
  induction l generalizing a b c with
  | nil => rfl
  | cons x xs ih => simp only [List.foldl_cons, ih]

/-- C2 (amended): for every decomposed ciphertext and switching key,
`applySwitchingKey` performs, for each digit index `i` in `[0, Beta)`, one
Montgomery-domain multiply-accumulate of the digit against the matching
key entry per accumulator, summing into three accumulators
`(c0, ci, cj)` over the base ring Q. -/
theorem applySwitchingKey_three_accumulators_over_Q (P : MKParams R)
    (d : List R) (key : MKSwitchingKey R) :
    applySwitchingKey P d key =
      (keySwitchAccum P.ringQ P.Beta d key.key0,
       keySwitchAccum P.ringQ P.Beta d key.key1,
       keySwitchAccum P.ringQ P.Beta d key.key2) := by
  simp only [applySwitchingKey, keySwitchAccum]
  exact foldl_prod3 (List.range P.Beta)
    (fun acc i => P.ringQ.MulCoeffsMontgomeryAndAdd (d.getD i P.ringQ.zero)
      (key.key0.getD i P.ringQ.zero) acc)
    (fun acc i => P.ringQ.MulCoeffsMontgomeryAndAdd (d.getD i P.ringQ.zero)
      (key.key1.getD i P.ringQ.zero) acc)
    (fun acc i => P.ringQ.MulCoeffsMontgomeryAndAdd (d.getD i P.ringQ.zero)
      (key.key2.getD i P.ringQ.zero) acc)
    P.ringQ.zero P.ringQ.zero P.ringQ.zero

/-- C2 as stated is false: at the concrete parameters, the first two
accumulators of `applySwitchingKey` are not the Q·P-ring accumulations the
claim describes (the source uses `GetRingQ`, not the extended ring). -/
theorem applySwitchingKey_not_over_QP :
    ¬ (((applySwitchingKey intParams [3] ⟨[4], [2], [1]⟩).1,
        (applySwitchingKey intParams [3] ⟨[4], [2], [1]⟩).2.1) =
       (keySwitchAccum intParams.ringQP intParams.Beta [3] [4],
        keySwitchAccum intParams.ringQP intParams.Beta [3] [2])) := by
  decide

/-- C1: the two relinearization strategies are not functionally
equivalent.  At the concrete one-party instantiation,
`RelinearizationOnTheFly` returns the same result whether the cross term
`c[3]` is `3` or `0` (its loops `i < k`, `j < k` never touch a cross term
involving party `k`), while `RelinearizationWithSharedRelinKey` folds the
cross term into the constant term, so the two outputs cannot decrypt to
the same plaintext for both values of the cross term. -/
theorem RelinearizationOnTheFly_ignores_cross_terms :
    RelinearizationOnTheFly intParams eksConc [] [0, 0, 0, 3] =
      RelinearizationOnTheFly intParams eksConc [] [0, 0, 0, 0] ∧
    RelinearizationWithSharedRelinKeyValues intParams rkConc
        ⟨[0, 1, 2, 3], [7]⟩ [0, 0, 0, 3] ≠
      RelinearizationWithSharedRelinKeyValues intParams rkConc
        ⟨[0, 1, 2, 3], [7]⟩ [0, 0, 0, 0] := by
  decide

/-- C3: for a `k`-party multi-key ciphertext with `(k+1)²` components,
both relinearization variants leave exactly `k+1` components. -/
theorem relinearization_collapses_to_k_plus_one_components
    (P : MKParams R) (rk : MKRelinearizationKey R) (ct : MKCiphertext)
    (σ : Store R) (eks : List (MKEvaluationKey R))
    (pks : List (MKPublicKey R)) (cparts : List R) (k : Nat)
    (hpeer : ct.peerIDs.length = k) (hval : ct.value.length = (k+1)^2)
    (hek : eks.length = k) (hcp : cparts.length = (k+1)^2) :
    (RelinearizationWithSharedRelinKey P rk ct σ).1.value.length = k + 1 ∧
    (RelinearizationOnTheFly P eks pks cparts).length = k + 1 := by
  constructor
  · simp [RelinearizationWithSharedRelinKey, hpeer]
  · simp [RelinearizationOnTheFly, hek]

/-- Reading a just-written store cell returns the written value. -/
theorem getD_set_self {α : Type} (l : List α) (m : Nat) (x d : α)
    (h : m < l.length) : (l.set m x).getD m d = x := by
  simp [List.getD_eq_getElem?_getD, List.getElem?_set_self, h]

/-- Writing one store cell leaves every other cell unchanged. -/
theorem getD_set_ne {α : Type} (l : List α) {m n : Nat} (x d : α)
    (h : m ≠ n) : (l.set m x).getD n d = l.getD n d := by
  simp [List.getD_eq_getElem?_getD, List.getElem?_set_ne h]

/-- Extending the store does not change the existing cells. -/
theorem getD_append_lt {α : Type} (l l2 : List α) (n : Nat) (d : α)
    (h : n < l.length) : (l ++ l2).getD n d = l.getD n d := by
  simp [List.getD_eq_getElem?_getD, List.getElem?_append_left h]

/-- The address of the `i`-th freshly allocated result polynomial. -/
theorem freshRes_getD (k L i : Nat) (h : i < k + 1) :
    ((List.range (k+1)).map (fun j => L + j)).getD i 0 = L + i := by
  simp [List.getD_eq_getElem?_getD, List.getElem?_map, List.getElem?_range h]

/-- `getD` at a valid index is the list element there. -/
theorem getD_eq_getElem_of_lt {α : Type} (l : List α) (i : Nat) (d : α)
    (h : i < l.length) : l.getD i d = l[i] := by
  simp [List.getD_eq_getElem?_getD, List.getElem?_eq_getElem h]

/-- The first loop of `RelinearizationWithSharedRelinKey` writes only to
the freshly allocated addresses `L + i`, so every cell below `L` keeps its
value, and the store length is unchanged. -/
theorem sharedLoop1_preserves (P : MKParams R) (res cipherParts : List Nat)
    (k L : Nat) (hres : ∀ m, m < k + 1 → res.getD m 0 = L + m)
    (I : List Nat) (hI : ∀ i ∈ I, 1 ≤ i ∧ i ≤ k) (τ : Store R) :
    (∀ a, a < L →
      (I.foldl (sharedLoop1Body P res cipherParts k) τ).getD a P.ringQ.zero =
        τ.getD a P.ringQ.zero) ∧
    (I.foldl (sharedLoop1Body P res cipherParts k) τ).length = τ.length := by
  induction I generalizing τ with
  | nil => exact ⟨fun a _ => rfl, rfl⟩
  | cons i I' ih =>
    have hi := hI i (List.mem_cons_self i I')
    have hIrest : ∀ i ∈ I', 1 ≤ i ∧ i ≤ k :=
      fun j hj => hI j (List.mem_cons_of_mem i hj)
    have hwrite : res.getD i 0 = L + i := hres i (by omega)
    refine ⟨fun a ha => ?_, ?_⟩
    · rw [List.foldl_cons, (ih hIrest _).1 a ha]
      unfold sharedLoop1Body
      rw [hwrite]
      exact getD_set_ne _ _ _ (by omega)
    · rw [List.foldl_cons, (ih hIrest _).2]
      unfold sharedLoop1Body
      exact List.length_set ..

/-- One iteration of the inner key-switch loop: it reads the cross term
from an untouched cell, accumulates its constant-term contribution into
the cell at `c0Prime = cipherParts.getD 0 0`, leaves every other cell
below `L` unchanged (its other two writes go to fresh addresses `≥ L`),
and preserves the store length. -/
theorem sharedLoop2Body_facts (P : MKParams R) (rk : MKRelinearizationKey R)
    (res cipherParts : List Nat) (k L : Nat) (σ : Store R)
    (hres : ∀ m, m < k + 1 → res.getD m 0 = L + m)
    (hlen : cipherParts.length = (k+1)^2)
    (hbound : ∀ a ∈ cipherParts, a < L)
    (hnodup : cipherParts.Nodup)
    (i : Nat) (hi1 : 1 ≤ i) (hi2 : i ≤ k)
    (j : Nat) (hj1 : 1 ≤ j) (hj2 : j ≤ k)
    (τ : Store R) (hLτ : L ≤ τ.length)
    (hagree : ∀ a, a < L → a ≠ cipherParts.getD 0 0 →
      τ.getD a P.ringQ.zero = σ.getD a P.ringQ.zero) :
    (sharedLoop2Body P rk res cipherParts k (cipherParts.getD 0 0) i τ
        j).getD (cipherParts.getD 0 0) P.ringQ.zero =
      P.ringQ.add (τ.getD (cipherParts.getD 0 0) P.ringQ.zero)
        (c0Contrib P rk cipherParts k σ i j) ∧
    (∀ a, a < L → a ≠ cipherParts.getD 0 0 →
      (sharedLoop2Body P rk res cipherParts k (cipherParts.getD 0 0) i τ
          j).getD a P.ringQ.zero = τ.getD a P.ringQ.zero) ∧
    (sharedLoop2Body P rk res cipherParts k (cipherParts.getD 0 0) i τ
        j).length = τ.length := by
  have h0len : 0 < cipherParts.length := by rw [hlen]; positivity
  have hc0 : cipherParts.getD 0 0 < L :=
    hbound _ (by rw [getD_eq_getElem_of_lt _ _ _ h0len]; exact List.getElem_mem h0len)
  have hidx : i*(k+1)+j < cipherParts.length ∧ i*(k+1)+j ≠ 0 := by
    have hmul : i*(k+1) ≤ k*(k+1) := Nat.mul_le_mul_right _ hi2
    have hsq : (k+1)^2 = k*(k+1) + (k+1) := by ring
    rw [hlen]
    omega
  obtain ⟨hidx1, hidx2⟩ := hidx
  have haij : cipherParts.getD (i*(k+1)+j) 0 = cipherParts[i*(k+1)+j] :=
    getD_eq_getElem_of_lt _ _ _ hidx1
  have ha0 : cipherParts.getD 0 0 = cipherParts[0] :=
    getD_eq_getElem_of_lt _ _ _ h0len
  have haij_ne : cipherParts.getD (i*(k+1)+j) 0 ≠ cipherParts.getD 0 0 := by
    rw [haij, ha0]
    intro h
    exact hidx2 (hnodup.getElem_inj_iff.mp h)
  have haij_lt : cipherParts.getD (i*(k+1)+j) 0 < L :=
    hbound _ (by rw [haij]; exact List.getElem_mem hidx1)
  have hread := hagree _ haij_lt haij_ne
  refine ⟨?_, fun a ha hne => ?_, ?_⟩
  · simp only [sharedLoop2Body, c0Contrib]
    rw [hread, hres i (by omega), hres j (by omega),
      getD_set_ne _ _ _ (by omega), getD_set_ne _ _ _ (by omega),
      getD_set_self _ _ _ _ (by omega)]
  · simp only [sharedLoop2Body]
    rw [hres i (by omega), hres j (by omega),
      getD_set_ne _ _ _ (by omega), getD_set_ne _ _ _ (by omega),
      getD_set_ne _ _ _ (by omega)]
  · simp only [sharedLoop2Body]
    simp [List.length_set]

/-- The inner key-switch loop over a list of indices `j`: the accumulator
cell collects the contributions in order, other cells below `L` keep their
values against `σ`, and the store length is unchanged. -/
theorem sharedLoop2Inner (P : MKParams R) (rk : MKRelinearizationKey R)
    (res cipherParts : List Nat) (k L : Nat) (σ : Store R)
    (hres : ∀ m, m < k + 1 → res.getD m 0 = L + m)
    (hlen : cipherParts.length = (k+1)^2)
    (hbound : ∀ a ∈ cipherParts, a < L)
    (hnodup : cipherParts.Nodup)
    (i : Nat) (hi1 : 1 ≤ i) (hi2 : i ≤ k)
    (J : List Nat) (hJ : ∀ j ∈ J, 1 ≤ j ∧ j ≤ k)
    (τ : Store R) (hLτ : L ≤ τ.length)
    (hagree : ∀ a, a < L → a ≠ cipherParts.getD 0 0 →
      τ.getD a P.ringQ.zero = σ.getD a P.ringQ.zero) :
    (J.foldl (sharedLoop2Body P rk res cipherParts k (cipherParts.getD 0 0) i)
        τ).getD (cipherParts.getD 0 0) P.ringQ.zero =
      J.foldl (fun acc j => P.ringQ.add acc (c0Contrib P rk cipherParts k σ i j))
        (τ.getD (cipherParts.getD 0 0) P.ringQ.zero) ∧
    (∀ a, a < L → a ≠ cipherParts.getD 0 0 →
      (J.foldl (sharedLoop2Body P rk res cipherParts k (cipherParts.getD 0 0) i)
          τ).getD a P.ringQ.zero = σ.getD a P.ringQ.zero) ∧
    (J.foldl (sharedLoop2Body P rk res cipherParts k (cipherParts.getD 0 0) i)
        τ).length = τ.length := by
  induction J generalizing τ with
  | nil => exact ⟨rfl, fun a ha hne => hagree a ha hne, rfl⟩
  | cons j J' ih =>
    have hj := hJ j (List.mem_cons_self j J')
    have hJrest : ∀ m ∈ J', 1 ≤ m ∧ m ≤ k :=
      fun m hm => hJ m (List.mem_cons_of_mem j hm)
    have hb := sharedLoop2Body_facts P rk res cipherParts k L σ hres hlen
      hbound hnodup i hi1 hi2 j hj.1 hj.2 τ hLτ hagree
    have hagree2 : ∀ a, a < L → a ≠ cipherParts.getD 0 0 →
        (sharedLoop2Body P rk res cipherParts k (cipherParts.getD 0 0) i τ
          j).getD a P.ringQ.zero = σ.getD a P.ringQ.zero :=
      fun a ha hne => (hb.2.1 a ha hne).trans (hagree a ha hne)
    have hLτ2 : L ≤ (sharedLoop2Body P rk res cipherParts k
        (cipherParts.getD 0 0) i τ j).length := by
      rw [hb.2.2]; exact hLτ
    have hrec := ih hJrest _ hLτ2 hagree2
    refine ⟨?_, hrec.2.1, hrec.2.2.trans hb.2.2⟩
    rw [List.foldl_cons, List.foldl_cons, hrec.1, hb.1]

/-- The outer key-switch loop: iterating the inner loop over a list of
indices `i` accumulates all contributions into the `c0Prime` cell, leaves
the other cells below `L` at their `σ` values, and preserves the length. -/
theorem sharedLoop2Outer (P : MKParams R) (rk : MKRelinearizationKey R)
    (res cipherParts : List Nat) (k L : Nat) (σ : Store R)
    (hres : ∀ m, m < k + 1 → res.getD m 0 = L + m)
    (hlen : cipherParts.length = (k+1)^2)
    (hbound : ∀ a ∈ cipherParts, a < L)
    (hnodup : cipherParts.Nodup)
    (I : List Nat) (hI : ∀ i ∈ I, 1 ≤ i ∧ i ≤ k)
    (τ : Store R) (hLτ : L ≤ τ.length)
    (hagree : ∀ a, a < L → a ≠ cipherParts.getD 0 0 →
      τ.getD a P.ringQ.zero = σ.getD a P.ringQ.zero) :
    (I.foldl (fun σ' i => (List.range' 1 k).foldl
        (sharedLoop2Body P rk res cipherParts k (cipherParts.getD 0 0) i) σ')
        τ).getD (cipherParts.getD 0 0) P.ringQ.zero =
      I.foldl (fun acc i => (List.range' 1 k).foldl
        (fun acc j => P.ringQ.add acc (c0Contrib P rk cipherParts k σ i j)) acc)
        (τ.getD (cipherParts.getD 0 0) P.ringQ.zero) ∧
    (∀ a, a < L → a ≠ cipherParts.getD 0 0 →
      (I.foldl (fun σ' i => (List.range' 1 k).foldl
          (sharedLoop2Body P rk res cipherParts k (cipherParts.getD 0 0) i) σ')
          τ).getD a P.ringQ.zero = σ.getD a P.ringQ.zero) ∧
    (I.foldl (fun σ' i => (List.range' 1 k).foldl
        (sharedLoop2Body P rk res cipherParts k (cipherParts.getD 0 0) i) σ')
        τ).length = τ.length := by
  have hrange : ∀ j ∈ List.range' 1 k, 1 ≤ j ∧ j ≤ k := by
    intro j hj
    have := List.mem_range'_1.mp hj
    omega
  induction I generalizing τ with
  | nil => exact ⟨rfl, fun a ha hne => hagree a ha hne, rfl⟩
  | cons i I' ih =>
    have hi := hI i (List.mem_cons_self i I')
    have hIrest : ∀ m ∈ I', 1 ≤ m ∧ m ≤ k :=
      fun m hm => hI m (List.mem_cons_of_mem i hm)
    have hin := sharedLoop2Inner P rk res cipherParts k L σ hres hlen
      hbound hnodup i hi.1 hi.2 (List.range' 1 k) hrange τ hLτ hagree
    have hLτ2 : L ≤ ((List.range' 1 k).foldl
        (sharedLoop2Body P rk res cipherParts k (cipherParts.getD 0 0) i)
        τ).length := by
      rw [hin.2.2]; exact hLτ
    have hrec := ih hIrest _ hLτ2 hin.2.1
    refine ⟨?_, hrec.2.1, hrec.2.2.trans hin.2.2⟩
    rw [List.foldl_cons, List.foldl_cons, hrec.1, hin.1]

/-- C10: `RelinearizationWithSharedRelinKey` mutates its input in place:
the result's component 0 is the very address that was `Value()[0]` before
the call, and the store cell at that address now holds the accumulated
constant term; all other result components are freshly allocated addresses
(at or above the old store length); `peerIDs` is unchanged. -/
theorem RelinearizationWithSharedRelinKey_mutates_in_place
    (P : MKParams R) (rk : MKRelinearizationKey R) (ct : MKCiphertext)
    (σ : Store R) (k : Nat)
    (hpeer : ct.peerIDs.length = k)
    (hlen : ct.value.length = (k+1)^2)
    (hbound : ∀ a ∈ ct.value, a < σ.length)
    (hnodup : ct.value.Nodup) :
    (RelinearizationWithSharedRelinKey P rk ct σ).1.value.getD 0 0 =
      ct.value.getD 0 0 ∧
    (∀ i, 1 ≤ i → i ≤ k →
      σ.length ≤ (RelinearizationWithSharedRelinKey P rk ct σ).1.value.getD i 0) ∧
    (RelinearizationWithSharedRelinKey P rk ct σ).1.peerIDs = ct.peerIDs ∧
    (RelinearizationWithSharedRelinKey P rk ct σ).2.getD
        (ct.value.getD 0 0) P.ringQ.zero = c0Accumulated P rk ct σ := by
  subst hpeer
  have h0len : 0 < ct.value.length := by rw [hlen]; positivity
  have hc0 : ct.value.getD 0 0 < σ.length :=
    hbound _ (by rw [getD_eq_getElem_of_lt _ _ _ h0len]; exact List.getElem_mem h0len)
  have hres : ∀ m, m < ct.peerIDs.length + 1 →
      ((List.range (ct.peerIDs.length+1)).map
        (fun i => σ.length + i)).getD m 0 = σ.length + m :=
    fun m hm => freshRes_getD _ _ _ hm
  have hrange : ∀ i ∈ List.range' 1 ct.peerIDs.length,
      1 ≤ i ∧ i ≤ ct.peerIDs.length := by
    intro i hi
    have := List.mem_range'_1.mp hi
    omega
  have hσ1len : (σ ++ List.replicate (ct.peerIDs.length+1)
      P.ringQ.zero).length = σ.length + (ct.peerIDs.length+1) := by
    simp
  have hσ1agree : ∀ a, a < σ.length →
      (σ ++ List.replicate (ct.peerIDs.length+1) P.ringQ.zero).getD a
        P.ringQ.zero = σ.getD a P.ringQ.zero :=
    fun a ha => getD_append_lt _ _ _ _ ha
  have hA := sharedLoop1_preserves P
    ((List.range (ct.peerIDs.length+1)).map (fun i => σ.length + i))
    ct.value ct.peerIDs.length σ.length hres (List.range' 1 ct.peerIDs.length)
    hrange (σ ++ List.replicate (ct.peerIDs.length+1) P.ringQ.zero)
  have hLσ2 : σ.length ≤ ((List.range' 1 ct.peerIDs.length).foldl
      (sharedLoop1Body P ((List.range (ct.peerIDs.length+1)).map
        (fun i => σ.length + i)) ct.value ct.peerIDs.length)
      (σ ++ List.replicate (ct.peerIDs.length+1) P.ringQ.zero)).length := by
    rw [hA.2, hσ1len]
    omega
  have hσ2agree : ∀ a, a < σ.length → a ≠ ct.value.getD 0 0 →
      ((List.range' 1 ct.peerIDs.length).foldl
        (sharedLoop1Body P ((List.range (ct.peerIDs.length+1)).map
          (fun i => σ.length + i)) ct.value ct.peerIDs.length)
        (σ ++ List.replicate (ct.peerIDs.length+1) P.ringQ.zero)).getD a
        P.ringQ.zero = σ.getD a P.ringQ.zero :=
    fun a ha _ => (hA.1 a ha).trans (hσ1agree a ha)
  have hOut := sharedLoop2Outer P rk
    ((List.range (ct.peerIDs.length+1)).map (fun i => σ.length + i))
    ct.value ct.peerIDs.length σ.length σ hres hlen hbound hnodup
    (List.range' 1 ct.peerIDs.length) hrange _ hLσ2 hσ2agree
  refine ⟨?_, fun i hi1 hi2 => ?_, rfl, ?_⟩
  · simp only [RelinearizationWithSharedRelinKey]
    exact getD_set_self _ _ _ _ (by simp)
  · simp only [RelinearizationWithSharedRelinKey]
    rw [getD_set_ne _ _ _ (by omega), freshRes_getD _ _ _ (by omega)]
    omega
  · simp only [RelinearizationWithSharedRelinKey, c0Accumulated]
    rw [hOut.1]
    congr 1
    exact (hA.1 _ hc0).trans (hσ1agree _ hc0)

/-- Witness for C10 at the concrete one-party inputs. -/
theorem RelinearizationWithSharedRelinKey_mutates_witness :
    ((⟨[0, 1, 2, 3], [7]⟩ : MKCiphertext).peerIDs.length = 1 ∧
      (⟨[0, 1, 2, 3], [7]⟩ : MKCiphertext).value.length = (1+1)^2 ∧
      (∀ a ∈ (⟨[0, 1, 2, 3], [7]⟩ : MKCiphertext).value,
        a < ([0, 0, 0, 3] : Store Int).length) ∧
      (⟨[0, 1, 2, 3], [7]⟩ : MKCiphertext).value.Nodup) ∧
    ((RelinearizationWithSharedRelinKey intParams rkConc
        ⟨[0, 1, 2, 3], [7]⟩ [0, 0, 0, 3]).1.value.getD 0 0 =
      (⟨[0, 1, 2, 3], [7]⟩ : MKCiphertext).value.getD 0 0 ∧
    (∀ i, 1 ≤ i → i ≤ 1 →
      ([0, 0, 0, 3] : Store Int).length ≤
        (RelinearizationWithSharedRelinKey intParams rkConc
          ⟨[0, 1, 2, 3], [7]⟩ [0, 0, 0, 3]).1.value.getD i 0) ∧
    (RelinearizationWithSharedRelinKey intParams rkConc
        ⟨[0, 1, 2, 3], [7]⟩ [0, 0, 0, 3]).1.peerIDs =
      (⟨[0, 1, 2, 3], [7]⟩ : MKCiphertext).peerIDs ∧
    (RelinearizationWithSharedRelinKey intParams rkConc
        ⟨[0, 1, 2, 3], [7]⟩ [0, 0, 0, 3]).2.getD
        ((⟨[0, 1, 2, 3], [7]⟩ : MKCiphertext).value.getD 0 0)
        intParams.ringQ.zero =
      c0Accumulated intParams rkConc ⟨[0, 1, 2, 3], [7]⟩ [0, 0, 0, 3]) :=
  ⟨⟨by decide, by decide, by decide, by decide⟩,
    RelinearizationWithSharedRelinKey_mutates_in_place intParams rkConc
      ⟨[0, 1, 2, 3], [7]⟩ [0, 0, 0, 3] 1
      (by decide) (by decide) (by decide) (by decide)⟩

/-- Witness for C3 at the concrete one-party inputs. -/
theorem relinearization_collapses_witness :
    ((⟨[0, 1, 2, 3], [7]⟩ : MKCiphertext).peerIDs.length = 1 ∧
      (⟨[0, 1, 2, 3], [7]⟩ : MKCiphertext).value.length = (1+1)^2 ∧
      eksConc.length = 1 ∧
      ([0, 0, 0, 3] : List Int).length = (1+1)^2) ∧
    ((RelinearizationWithSharedRelinKey intParams rkConc
        ⟨[0, 1, 2, 3], [7]⟩ [0, 0, 0, 3]).1.value.length = 1 + 1 ∧
      (RelinearizationOnTheFly intParams eksConc [] [0, 0, 0, 3]).length = 1 + 1) :=
  ⟨⟨by decide, by decide, by decide, by decide⟩,
    relinearization_collapses_to_k_plus_one_components intParams rkConc
      ⟨[0, 1, 2, 3], [7]⟩ [0, 0, 0, 3] eksConc [] [0, 0, 0, 3] 1
      (by decide) (by decide) (by decide) (by decide)⟩

end MKBFV

namespace CKKS

/-- C4: for every degree-2 ciphertext with the evaluation key present,
`Relinearize` returns a ciphertext of degree exactly 1 with level and
scale unchanged; for every ciphertext already at degree 1 it fails with
`DegreeMismatch` (whether or not a key is present). -/
theorem Relinearize_degree_contract (b : Bool) (ct : Ciphertext) :
    (ct.degree = 2 →
      Relinearize true ct = Except.ok ⟨1, ct.level, ct.scale⟩) ∧
    (ct.degree = 1 →
      Relinearize b ct = Except.error EvalError.DegreeMismatch) := by
  constructor
  · intro h
    simp [Relinearize, h]
  · intro h
    simp [Relinearize, h]

/-- Witness for C4: a degree-2 and a degree-1 ciphertext. -/
theorem Relinearize_degree_contract_witness :
    ((⟨2, 3, 5⟩ : Ciphertext).degree = 2 ∧
      Relinearize true ⟨2, 3, 5⟩ = Except.ok ⟨1, 3, 5⟩) ∧
    ((⟨1, 3, 5⟩ : Ciphertext).degree = 1 ∧
      Relinearize true ⟨1, 3, 5⟩ = Except.error EvalError.DegreeMismatch) :=
  ⟨⟨rfl, (Relinearize_degree_contract true ⟨2, 3, 5⟩).1 rfl⟩,
   ⟨rfl, (Relinearize_degree_contract true ⟨1, 3, 5⟩).2 rfl⟩⟩

/-- C5: for every ciphertext at level `L ≥ n`, `RescaleMany n` yields
level exactly `L - n` and scale exactly the old scale divided by the
product of the `n` dropped moduli `q_(L-n+1) … q_L`. -/
theorem RescaleMany_level_scale_exact (p : Parameters) (n : Nat)
    (ct : Ciphertext) (hn : n ≤ ct.level) :
    RescaleMany p n ct = Except.ok
      ⟨ct.degree, ct.level - n,
        ct.scale / moduliProd p (ct.level - n + 1) n⟩ := by
  induction n generalizing ct with
  | zero =>
    obtain ⟨d, l, s⟩ := ct
    simp [RescaleMany, moduliProd]
  | succ m ih =>
    obtain ⟨d, l, s⟩ := ct
    simp only at hn
    have hl : ¬ (l = 0) := by omega
    simp only [RescaleMany, Rescale, hl, if_false, Except.bind]
    rw [ih ⟨d, l - 1, s / (p.moduli.getD l 0 : ℚ)⟩ (by simp; omega)]
    have h1 : l - 1 - m = l - (m+1) := by omega
    have h2 : l - 1 - m + 1 = l - m := by omega
    have h3 : l - (m+1) + 1 = l - m := by omega
    have hprod : moduliProd p (l - m) (m+1) =
        moduliProd p (l - m) m * (p.moduli.getD l 0 : ℚ) := by
      unfold moduliProd
      rw [List.range'_concat]
      have h4 : l - m + 1 * m = l := by omega
      rw [h4, List.map_append, List.prod_append]
      simp
    simp only [h1, h2, h3, hprod]
    rw [div_div, mul_comm]

/-- Witness for C5: two rescalings from level 3 with chain [2,3,5,7]. -/
theorem RescaleMany_level_scale_witness :
    2 ≤ (⟨1, 3, 210⟩ : Ciphertext).level ∧
    RescaleMany ⟨[2, 3, 5, 7]⟩ 2 ⟨1, 3, 210⟩ = Except.ok
      ⟨(⟨1, 3, (210:ℚ)⟩ : Ciphertext).degree, (⟨1, 3, (210:ℚ)⟩ : Ciphertext).level - 2,
        (⟨1, 3, (210:ℚ)⟩ : Ciphertext).scale /
          moduliProd ⟨[2, 3, 5, 7]⟩ ((⟨1, 3, (210:ℚ)⟩ : Ciphertext).level - 2 + 1) 2⟩ :=
  ⟨by decide,
    RescaleMany_level_scale_exact ⟨[2, 3, 5, 7]⟩ 2 ⟨1, 3, 210⟩ (by decide)⟩

end CKKS

namespace DBFV

/-- C6: aggregating the parties' CKG shares in any permutation of arrival
order yields the same joint key (the group operation is polynomial
addition, commutative and associative), and the resulting public key
encrypts correctly under the joint secret: with the noiseless model,
`Decrypt (Encrypt v) = v` exactly. -/
theorem ckg_aggregation_any_order_correct {R : Type} [CommRing R]
    (a v u : R) (secrets : List R) (l : List R)
    (hperm : l.Perm (secrets.map (fun s => CKGGenShare a s 0))) :
    AggregateShares l =
      AggregateShares (secrets.map (fun s => CKGGenShare a s 0)) ∧
    Decrypt (Encrypt ⟨AggregateShares l, a⟩ v u) secrets.sum = v := by
  have hsum : AggregateShares l =
      AggregateShares (secrets.map (fun s => CKGGenShare a s 0)) :=
    hperm.sum_eq
  refine ⟨hsum, ?_⟩
  rw [Decrypt, Encrypt, hsum]
  have hmap : ∀ ss : List R,
      (ss.map (fun s => CKGGenShare a s 0)).sum = -(a * ss.sum) := by
    intro ss
    induction ss with
    | nil => simp
    | cons s ss ih =>
      rw [List.map_cons, List.sum_cons, List.sum_cons, ih]
      simp only [CKGGenShare]
      ring
  rw [AggregateShares, hmap]
  ring

/-- Witness for C6: two parties' shares aggregated in reversed order
over the integers. -/
theorem ckg_aggregation_witness :
    ([CKGGenShare (2:ℤ) 2 0, CKGGenShare (2:ℤ) 1 0]).Perm
      (([1, 2] : List ℤ).map (fun s => CKGGenShare (2:ℤ) s 0)) ∧
    (AggregateShares [CKGGenShare (2:ℤ) 2 0, CKGGenShare (2:ℤ) 1 0] =
      AggregateShares (([1, 2] : List ℤ).map (fun s => CKGGenShare (2:ℤ) s 0)) ∧
    Decrypt (Encrypt ⟨AggregateShares
        [CKGGenShare (2:ℤ) 2 0, CKGGenShare (2:ℤ) 1 0], 2⟩ 9 3)
      ([1, 2] : List ℤ).sum = 9) :=
  ⟨by decide,
    ckg_aggregation_any_order_correct 2 9 3 [1, 2]
      [CKGGenShare (2:ℤ) 2 0, CKGGenShare (2:ℤ) 1 0] (by decide)⟩

end DBFV

namespace CKKS

/-- Rotating by `n` and then by the complementary amount brings every
slot index back to itself. -/
theorem rotIndex_cancel (s n i : Nat) (hi : i < s) (hn : n ≤ s) :
    ((i + (s - n) % s) % s + n) % s = i := by
  rw [Nat.mod_add_mod]
  rcases Nat.eq_or_lt_of_le hn with h | h
  · subst h
    rw [Nat.sub_self, Nat.zero_mod, Nat.add_zero, Nat.add_mod_right,
      Nat.mod_eq_of_lt hi]
  · rcases Nat.eq_zero_or_pos n with h0 | h0
    · subst h0
      simp [Nat.mod_self, Nat.mod_eq_of_lt hi]
    · have hsn : (s - n) % s = s - n := Nat.mod_eq_of_lt (by omega)
      rw [hsn]
      have hadd : i + (s - n) + n = i + s := by omega
      rw [hadd, Nat.add_mod_right, Nat.mod_eq_of_lt hi]

/-- C8: rotating the slots by `n` and then by `(slots - n) mod slots`
restores the original slot order, and conjugating twice is the identity
on the slot values. -/
theorem rotate_inverse_conjugate_involution (s n : Nat) (hn : n ≤ s)
    (v : Fin s → ℚ × ℚ) :
    RotateColumns s ((s - n) % s) (RotateColumns s n v) = v ∧
    Conjugate s (Conjugate s v) = v := by
  constructor
  · funext i
    simp only [RotateColumns]
    congr 1
    exact Fin.ext (rotIndex_cancel s n i.val i.isLt hn)
  · funext i
    simp [Conjugate]

/-- Witness for C8: four slots rotated by one. -/
theorem rotate_inverse_conjugate_witness :
    1 ≤ 4 ∧
    (RotateColumns 4 ((4 - 1) % 4) (RotateColumns 4 1 slotsSample) =
        slotsSample ∧
      Conjugate 4 (Conjugate 4 slotsSample) = slotsSample) :=
  ⟨by decide, rotate_inverse_conjugate_involution 4 1 (by decide) slotsSample⟩

/-- C9: for every input vector and positive scale, decode-after-encode
recovers each coordinate within the fixed precision bound `1/(2·scale)`
determined by the scale, and exact recovery does not hold in general
(there is a vector on which the round trip is not the identity). -/
theorem decode_encode_within_precision (scale : ℚ) (hs : 0 < scale)
    (values : List ℚ) (i : Nat) (hi : i < values.length) :
    |(Decode scale (Encode scale values)).getD i 0 - values.getD i 0| ≤
      1 / (2 * scale) ∧
    ∃ w : List ℚ, Decode scale (Encode scale w) ≠ w := by
  have hne : scale ≠ 0 := ne_of_gt hs
  constructor
  · have hDE : Decode scale (Encode scale values) =
        values.map (fun x => ((round (scale * x) : ℤ) : ℚ) / scale) := by
      unfold Decode Encode
      rw [List.map_map]
      rfl
    rw [hDE]
    have hlen : i < (values.map
        (fun x => ((round (scale * x) : ℤ) : ℚ) / scale)).length := by
      rw [List.length_map]
      exact hi
    rw [MKBFV.getD_eq_getElem_of_lt _ _ _ hlen,
      MKBFV.getD_eq_getElem_of_lt _ _ _ hi, List.getElem_map]
    have h1 : |(round (scale * values[i]) : ℚ) - scale * values[i]| ≤ 1/2 := by
      rw [abs_sub_comm]
      exact abs_sub_round _
    have h2 : (round (scale * values[i]) : ℚ)/scale - values[i] =
        ((round (scale * values[i]) : ℚ) - scale * values[i])/scale := by
      field_simp
    rw [h2, abs_div, abs_of_pos hs]
    calc |(round (scale * values[i]) : ℚ) - scale * values[i]| / scale ≤
        (1/2) / scale := by
          exact div_le_div_of_le_of_nonneg h1 (le_of_lt hs)
      _ = 1 / (2 * scale) := by rw [div_div]
  · refine ⟨[1/(4*scale)], ?_⟩
    intro h
    simp only [Decode, Encode, List.map_cons, List.map_nil] at h
    have hx : scale * (1/(4*scale)) = 1/4 := by
      field_simp
      ring
    rw [hx] at h
    have hr : round ((1:ℚ)/4) = 0 := by norm_num [round_eq]
    rw [hr] at h
    have hpos : (0:ℚ) < 1/(4*scale) := by positivity
    simp only [Int.cast_zero, zero_div, List.cons.injEq, and_true] at h
    exact absurd h.symm (ne_of_gt hpos)

/-- Witness for C9: scale 2 on the vector [1/4]. -/
theorem decode_encode_witness :
    ((0:ℚ) < 2 ∧ (0:Nat) < ([1/4] : List ℚ).length) ∧
    (|(Decode 2 (Encode 2 [1/4])).getD 0 0 - ([1/4] : List ℚ).getD 0 0| ≤
      1 / (2 * 2) ∧
    ∃ w : List ℚ, Decode 2 (Encode 2 w) ≠ w) :=
  ⟨⟨by norm_num, by decide⟩,
    decode_encode_within_precision 2 (by norm_num) [1/4] 0 (by decide)⟩

end CKKS

namespace Serial

/-- Decoding a just-encoded natural consumes it exactly. -/
theorem decNat_enc (n : Nat) (r : List Nat) :
    decNat (encNat n ++ r) = some (n, r) := rfl

/-- Decoding a just-encoded integer consumes it exactly. -/
theorem decInt_enc (i : Int) (r : List Nat) :
    decInt (encInt i ++ r) = some (i, r) := by
  rcases le_or_lt 0 i with h | h
  · have h2 : 2 * i.toNat % 2 = 0 := by omega
    have h3 : 2 * i.toNat / 2 = i.toNat := by omega
    simp [encInt, if_pos h, decInt, decNat, h2, h3, Int.toNat_of_nonneg h]
  · have ht : 1 ≤ (-i).toNat := by omega
    have h2 : (2 * (-i).toNat - 1) % 2 = 1 := by omega
    have h3 : (2 * (-i).toNat - 1 + 1) / 2 = (-i).toNat := by omega
    have h4 : -(((-i).toNat : Int)) = i := by omega
    simp [encInt, if_neg (not_le.mpr h), decInt, decNat, h2, h3, h4]
    omega

/-- Decoding a just-encoded rational consumes it exactly. -/
theorem decRat_enc (q : ℚ) (r : List Nat) :
    decRat (encRat q ++ r) = some (q, r) := by
  simp only [encRat, List.append_assoc, decRat, decInt_enc, Option.some_bind,
    decNat_enc, Option.map_some']
  rw [Rat.mkRat_self]

/-- Decoding `n` just-encoded elements consumes them exactly. -/
theorem decCount_enc {α : Type} (d : Dec α) (e : α → List Nat)
    (h : ∀ a r, d (e a ++ r) = some (a, r)) (xs : List α) (r : List Nat) :
    decCount d xs.length ((xs.map e).flatten ++ r) = some (xs, r) := by
  induction xs with
  | nil => rfl
  | cons x xs ih =>
    simp only [List.map_cons, List.flatten_cons, List.length_cons, decCount,
      List.append_assoc, h, Option.some_bind, ih, Option.map_some']

/-- Decoding a just-encoded list consumes it exactly. -/
theorem decList_enc {α : Type} (d : Dec α) (e : α → List Nat)
    (h : ∀ a r, d (e a ++ r) = some (a, r)) (xs : List α) (r : List Nat) :
    decList d (encList e xs ++ r) = some (xs, r) := by
  simp only [encList, List.append_assoc, decList, encNat, List.cons_append,
    List.nil_append]
  rw [show decNat (xs.length :: ((xs.map e).flatten ++ r)) =
    some (xs.length, (xs.map e).flatten ++ r) from rfl]
  simp only [Option.some_bind]
  exact decCount_enc d e h xs r

/-- Decoding a just-encoded pair consumes it exactly. -/
theorem decPair_enc {α β : Type} (d1 : Dec α) (d2 : Dec β)
    (e1 : α → List Nat) (e2 : β → List Nat)
    (h1 : ∀ a r, d1 (e1 a ++ r) = some (a, r))
    (h2 : ∀ b r, d2 (e2 b ++ r) = some (b, r)) (p : α × β) (r : List Nat) :
    decPair d1 d2 (encPair e1 e2 p ++ r) = some (p, r) := by
  simp only [encPair, List.append_assoc, decPair, h1, Option.some_bind, h2,
    Option.map_some']

/-- Decoding a just-encoded polynomial consumes it exactly. -/
theorem decPoly_enc (p : Poly) (r : List Nat) :
    decPoly (encPoly p ++ r) = some (p, r) :=
  decList_enc decNat encNat decNat_enc p r

/-- Decoding a just-marshalled ciphertext consumes it exactly. -/
theorem decCiphertext_enc (ct : Ciphertext) (r : List Nat) :
    decCiphertext (MarshalCiphertext ct ++ r) = some (ct, r) := by
  obtain ⟨v, lv, s⟩ := ct
  have hP := decList_enc decPoly encPoly decPoly_enc
  simp only [MarshalCiphertext, List.append_assoc, decCiphertext, hP,
    Option.some_bind, decNat_enc, decRat_enc, Option.map_some']

/-- Decoding a just-marshalled secret key consumes it exactly. -/
theorem decSecretKey_enc (k : SecretKey) (r : List Nat) :
    decSecretKey (MarshalSecretKey k ++ r) = some (k, r) := by
  obtain ⟨sk⟩ := k
  simp only [MarshalSecretKey, decSecretKey, decPoly_enc, Option.map_some']

/-- Decoding a just-marshalled public key consumes it exactly. -/
theorem decPublicKey_enc (k : PublicKey) (r : List Nat) :
    decPublicKey (MarshalPublicKey k ++ r) = some (k, r) := by
  obtain ⟨p0, p1⟩ := k
  simp only [MarshalPublicKey, List.append_assoc, decPublicKey, decPoly_enc,
    Option.some_bind, Option.map_some']

/-- Decoding a just-marshalled switching key consumes it exactly. -/
theorem decSwitchingKey_enc (k : SwitchingKey) (r : List Nat) :
    decSwitchingKey (MarshalSwitchingKey k ++ r) = some (k, r) := by
  obtain ⟨ev⟩ := k
  have hPP := decPair_enc decPoly decPoly encPoly encPoly decPoly_enc decPoly_enc
  have hL := decList_enc (decPair decPoly decPoly) (encPair encPoly encPoly) hPP
  simp only [MarshalSwitchingKey, decSwitchingKey, hL, Option.map_some']

/-- Decoding a just-marshalled evaluation key consumes it exactly. -/
theorem decEvaluationKey_enc (k : EvaluationKey) (r : List Nat) :
    decEvaluationKey (MarshalEvaluationKey k ++ r) = some (k, r) := by
  obtain ⟨sw⟩ := k
  simp only [MarshalEvaluationKey, decEvaluationKey, decSwitchingKey_enc,
    Option.map_some']

/-- Decoding a just-encoded rotation-key entry consumes it exactly. -/
theorem decRotEntry_enc (e : RotEntry) (r : List Nat) :
    decRotEntry (encRotEntry e ++ r) = some (e, r) := by
  obtain ⟨am, pidx, k⟩ := e
  have hN := decList_enc decNat encNat decNat_enc
  simp only [encRotEntry, List.append_assoc, decRotEntry, decNat_enc,
    Option.some_bind, hN, decSwitchingKey_enc, Option.map_some']

/-- Decoding just-marshalled rotation keys consumes them exactly. -/
theorem decRotationKeys_enc (k : RotationKeys) (r : List Nat) :
    decRotationKeys (MarshalRotationKeys k ++ r) = some (k, r) := by
  obtain ⟨es⟩ := k
  have hL := decList_enc decRotEntry encRotEntry decRotEntry_enc
  simp only [MarshalRotationKeys, decRotationKeys, hL, Option.map_some']

/-- C7: for every Ciphertext, SecretKey, PublicKey, EvaluationKey,
SwitchingKey, and RotationKeys value, marshal-then-unmarshal returns the
identical value (all logical fields — components and hence degree, level,
scale, every coefficient — preserved, including the minimal degree-0
ciphertext, which is just an instance of the universal statement); and
unmarshalling a zero-length buffer fails for every type. -/
theorem marshal_unmarshal_roundtrip_and_empty_fails :
    (∀ ct : Ciphertext, UnmarshalCiphertext (MarshalCiphertext ct) = some ct) ∧
    (∀ k : SecretKey, UnmarshalSecretKey (MarshalSecretKey k) = some k) ∧
    (∀ k : PublicKey, UnmarshalPublicKey (MarshalPublicKey k) = some k) ∧
    (∀ k : EvaluationKey,
      UnmarshalEvaluationKey (MarshalEvaluationKey k) = some k) ∧
    (∀ k : SwitchingKey,
      UnmarshalSwitchingKey (MarshalSwitchingKey k) = some k) ∧
    (∀ k : RotationKeys,
      UnmarshalRotationKeys (MarshalRotationKeys k) = some k) ∧
    UnmarshalCiphertext [] = none ∧
    UnmarshalSecretKey [] = none ∧
    UnmarshalPublicKey [] = none ∧
    UnmarshalEvaluationKey [] = none ∧
    UnmarshalSwitchingKey [] = none ∧
    UnmarshalRotationKeys [] = none := by
  refine ⟨fun ct => ?_, fun k => ?_, fun k => ?_, fun k => ?_, fun k => ?_,
    fun k => ?_, rfl, rfl, rfl, rfl, rfl, rfl⟩
  · rw [UnmarshalCiphertext, ← List.append_nil (MarshalCiphertext ct),
      decCiphertext_enc]
  · rw [UnmarshalSecretKey, ← List.append_nil (MarshalSecretKey k),
      decSecretKey_enc]
  · rw [UnmarshalPublicKey, ← List.append_nil (MarshalPublicKey k),
      decPublicKey_enc]
  · rw [UnmarshalEvaluationKey, ← List.append_nil (MarshalEvaluationKey k),
      decEvaluationKey_enc]
  · rw [UnmarshalSwitchingKey, ← List.append_nil (MarshalSwitchingKey k),
      decSwitchingKey_enc]
  · rw [UnmarshalRotationKeys, ← List.append_nil (MarshalRotationKeys k),
      decRotationKeys_enc]

end Serial

end Lattigo
